import Mathlib

/-!
Verification development for the photon virtual-hosting content server.

The JavaScript sources are modelled over `Str := List Char` (one Lean
character per JS UTF-16 unit; all inputs considered here are ASCII).
Node's `path` (posix flavour) library functions used by the server are
modelled segment-faithfully, and the server's own functions
(`resolveSafe`, `hasDotfile`, `getHomeForHost`, `searchHtaccess`,
`processErrorDocument`, the CGI output framing of `executePhp`) are
translated directly from the source.
-/

abbrev Str := List Char

/-- JS whitespace test used by `String.prototype.trim` (ASCII portion). -/
def isWs (c : Char) : Bool :=
  c == ' ' || c == '\t' || c == '\n' || c == '\r' ||
  c == Char.ofNat 11 || c == Char.ofNat 12

/-- JS `String.prototype.trim`. -/
def jsTrim (s : Str) : Str :=
  ((s.dropWhile isWs).reverse.dropWhile isWs).reverse

/-- JS `String.prototype.toLowerCase` (ASCII portion). -/
def toLowerStr (s : Str) : Str := s.map Char.toLower

/-- JS `String.prototype.split` with a single-character separator:
always returns a non-empty list of (possibly empty) pieces. -/
def splitChar (c : Char) : Str → List Str
  | [] => [[]]
  | h :: t =>
    if h = c then [] :: splitChar c t
    else (h :: (splitChar c t).headD []) :: (splitChar c t).tail

/-- JS `Array.prototype.join` with a single-character separator. -/
def joinWith (c : Char) : List Str → Str
  | [] => []
  | [p] => p
  | p :: q :: ps => p ++ c :: joinWith c (q :: ps)

/-- JS `String.prototype.indexOf` restricted to a needle pattern:
first index at which `pat` occurs in `s`, or `none` (-1 in JS). -/
def jsIndexOf (pat : Str) : Str → Option Nat
  | [] => if List.isPrefixOf pat [] then some 0 else none
  | c :: t =>
    if List.isPrefixOf pat (c :: t) then some 0
    else
      match jsIndexOf pat t with
      | some i => some (i + 1)
      | none => none

/-- JS split on the regex `/\s+/` applied to an already-trimmed string:
maximal runs of non-whitespace characters. -/
def splitWsAux (cur : Str) : Str → List Str
  | [] => if cur = [] then [] else [cur.reverse]
  | c :: t =>
    if isWs c then
      (if cur = [] then splitWsAux [] t else cur.reverse :: splitWsAux [] t)
    else splitWsAux (c :: cur) t

def splitWs (s : Str) : List Str := splitWsAux [] s

/-- Association-list update, modelling JS object property assignment
(`obj[k] = v`: later assignments override earlier ones). -/
def assocSet {β : Type} (k : Str) (v : β) : List (Str × β) → List (Str × β)
  | [] => [(k, v)]
  | (k', v') :: t => if k' = k then (k, v) :: t else (k', v') :: assocSet k v t

/-- Association-list lookup, modelling JS object property read. -/
def assocLookup {β : Type} : List (Str × β) → Str → Option β
  | [], _ => none
  | (k', v') :: t, k => if k' = k then some v' else assocLookup t k

/-! ## Node `path` (posix) library model -/

/-- Node `path.posix.isAbsolute`. -/
def posixIsAbsolute (p : Str) : Bool := p.head? == some '/'

/-- Core of Node's `normalizeString`: fold the raw `/`-split segments,
dropping empty and `.` segments, resolving `..` against the
accumulated stack (kept above root only when `allowAboveRoot`). -/
def normSegsAux (allowAboveRoot : Bool) : List Str → List Str → List Str
  | acc, [] => acc.reverse
  | acc, seg :: rest =>
    if seg = [] ∨ seg = ['.'] then normSegsAux allowAboveRoot acc rest
    else if seg = ['.', '.'] then
      match acc with
      | [] => normSegsAux allowAboveRoot (if allowAboveRoot then [seg] else []) rest
      | top :: accRest =>
        if top = ['.', '.'] then
          normSegsAux allowAboveRoot (if allowAboveRoot then seg :: top :: accRest else top :: accRest) rest
        else normSegsAux allowAboveRoot accRest rest
    else normSegsAux allowAboveRoot (seg :: acc) rest

def normSegs (allowAboveRoot : Bool) (segs : List Str) : List Str :=
  normSegsAux allowAboveRoot [] segs

/-- Node `path.posix.normalize`. -/
def posixNormalize (p : Str) : Str :=
  if p = [] then ['.']
  else
    let isAbs := posixIsAbsolute p
    let trailing := p.getLast? == some '/'
    let r := joinWith '/' (normSegs (!isAbs) (splitChar '/' p))
    if r = [] then
      if isAbs then ['/'] else if trailing then ['.', '/'] else ['.']
    else
      let r1 := if trailing then r ++ ['/'] else r
      if isAbs then '/' :: r1 else r1

/-- Node `path.posix.join` on two arguments. -/
def posixJoin2 (a b : Str) : Str :=
  match [a, b].filter (· ≠ []) with
  | [] => ['.']
  | parts => posixNormalize (joinWith '/' parts)

/-- Node `path.posix.resolve` on one argument, with the process working
directory `cwd` (assumed absolute) made explicit. -/
def posixResolve1 (cwd p : Str) : Str :=
  let full := if posixIsAbsolute p then p else cwd ++ '/' :: p
  '/' :: joinWith '/' (normSegs false (splitChar '/' full))

/-- Segments of an already-resolved absolute path. -/
def segsOf (s : Str) : List Str := (splitChar '/' s).filter (· ≠ [])

/-- Drop the common leading segments of two segment lists. -/
def dropCommon : List Str → List Str → List Str × List Str
  | a :: as, b :: bs => if a = b then dropCommon as bs else (a :: as, b :: bs)
  | as, bs => (as, bs)

/-- Node `path.posix.relative` (both arguments resolved first). -/
def posixRelative (cwd fromP toP : Str) : Str :=
  let f := posixResolve1 cwd fromP
  let t := posixResolve1 cwd toP
  if f = t then []
  else
    let rests := dropCommon (segsOf f) (segsOf t)
    joinWith '/' (rests.1.map (fun _ => ['.', '.']) ++ rests.2)

/-- Node `path.posix.dirname` in the shape used by its character scan:
strip trailing separators, strip the final segment, then apply the
root / empty-result special cases of the source. -/
def dirnameCore (hasRoot : Bool) (rev2 : Str) : Str :=
  match rev2 with
  | [] => if hasRoot then ['/'] else ['.']
  | _ :: t =>
    if t.reverse = [] then (if hasRoot then ['/'] else ['.'])
    else if hasRoot = true ∧ t.reverse = ['/'] then ['/', '/']
    else t.reverse

def posixDirname (p : Str) : Str :=
  if p = [] then ['.']
  else dirnameCore (posixIsAbsolute p)
    ((p.reverse.dropWhile (· == '/')).dropWhile (· != '/'))

/-- Node `path.posix.basename`. -/
def posixBasename (p : Str) : Str :=
  ((p.reverse.dropWhile (· == '/')).takeWhile (· != '/')).reverse

/-- Index of the last `.` of a string, if any. -/
def lastDotIndex (b : Str) : Option Nat :=
  match b.reverse.findIdx? (· == '.') with
  | none => none
  | some j => some (b.length - 1 - j)

/-- Node `path.posix.extname`. -/
def posixExtname (p : Str) : Str :=
  let b := posixBasename p
  if b = ['.', '.'] then []
  else
    match lastDotIndex b with
    | none => []
    | some 0 => []
    | some i => b.drop i

/-! ## JS `decodeURIComponent` model

Percent escapes are decoded to bytes and byte runs are strictly UTF-8
decoded exactly as `decodeURIComponent` does; any malformed escape or
invalid byte sequence throws in JS, modelled as `none`. -/

def hexVal (c : Char) : Option Nat :=
  if '0' ≤ c ∧ c ≤ '9' then some (c.toNat - '0'.toNat)
  else if 'a' ≤ c ∧ c ≤ 'f' then some (c.toNat - 'a'.toNat + 10)
  else if 'A' ≤ c ∧ c ≤ 'F' then some (c.toNat - 'A'.toNat + 10)
  else none

inductive UriTok
  | ch (c : Char)
  | byte (b : Nat)
deriving DecidableEq

def uriTokens : Str → Option (List UriTok)
  | [] => some []
  | '%' :: a :: b :: rest =>
    match hexVal a, hexVal b with
    | some hi, some lo => (uriTokens rest).map (UriTok.byte (16 * hi + lo) :: ·)
    | _, _ => none
  | '%' :: _ => none
  | c :: rest => (uriTokens rest).map (UriTok.ch c :: ·)

def isContByte (b : Nat) : Bool := decide (0x80 ≤ b ∧ b ≤ 0xBF)

def utf8Assemble : List UriTok → Option Str
  | [] => some []
  | .ch c :: r => (utf8Assemble r).map (c :: ·)
  | .byte b :: r =>
    if b < 0x80 then (utf8Assemble r).map (Char.ofNat b :: ·)
    else if 0xC2 ≤ b ∧ b ≤ 0xDF then
      match r with
      | .byte b2 :: r2 =>
        if isContByte b2 then
          (utf8Assemble r2).map (Char.ofNat ((b - 0xC0) * 0x40 + (b2 - 0x80)) :: ·)
        else none
      | _ => none
    else if 0xE0 ≤ b ∧ b ≤ 0xEF then
      match r with
      | .byte b2 :: .byte b3 :: r2 =>
        let okB2 : Bool :=
          if b = 0xE0 then decide (0xA0 ≤ b2 ∧ b2 ≤ 0xBF)
          else if b = 0xED then decide (0x80 ≤ b2 ∧ b2 ≤ 0x9F)
          else isContByte b2
        if okB2 && isContByte b3 then
          (utf8Assemble r2).map
            (Char.ofNat ((b - 0xE0) * 0x1000 + (b2 - 0x80) * 0x40 + (b3 - 0x80)) :: ·)
        else none
      | _ => none
    else if 0xF0 ≤ b ∧ b ≤ 0xF4 then
      match r with
      | .byte b2 :: .byte b3 :: .byte b4 :: r2 =>
        let okB2 : Bool :=
          if b = 0xF0 then decide (0x90 ≤ b2 ∧ b2 ≤ 0xBF)
          else if b = 0xF4 then decide (0x80 ≤ b2 ∧ b2 ≤ 0x8F)
          else isContByte b2
        if okB2 && isContByte b3 && isContByte b4 then
          (utf8Assemble r2).map
            (Char.ofNat ((b - 0xF0) * 0x40000 + (b2 - 0x80) * 0x1000 +
              (b3 - 0x80) * 0x40 + (b4 - 0x80)) :: ·)
        else none
      | _ => none
    else none

def decodeURIComponent (s : Str) : Option Str :=
  (uriTokens s).bind utf8Assemble

/-! ## utils.js -/

/-- utils.js `hasDotfile`: check if any part of the path begins with a dot
(`p.split(path.sep).some(part => part.startsWith("."))`, posix `sep`). -/
def hasDotfile (p : Str) : Bool :=
  (splitChar '/' p).any (fun part => List.isPrefixOf ['.'] part)

/-- The regex `^(\.\.[\/\\])+` replacement in `resolveSafe`. -/
def stripLeadingDotDot : Str → Str
  | '.' :: '.' :: '/' :: rest => stripLeadingDotDot rest
  | '.' :: '.' :: '\\' :: rest => stripLeadingDotDot rest
  | s => s

/-- The two guards of utils.js `resolveSafe` after `fullPath` is built:
`if (!fullPath.startsWith(path.resolve(base))) return null;`
`if (hasDotfile(path.relative(base, fullPath))) return null;`
`return fullPath;`. -/
def resolveSafeChecks (cwd base fullPath : Str) : Option Str :=
  if List.isPrefixOf (posixResolve1 cwd base) fullPath = false then none
  else if hasDotfile (posixRelative cwd base fullPath) = true then none
  else some fullPath

/-- utils.js `resolveSafe`: decode, lexically normalize, strip leading
escape sequences, join onto the base, then run the two guards. A
`decodeURIComponent` failure is the caught exception path (`null`). -/
def resolveSafe (cwd base requestPath : Str) : Option Str :=
  match decodeURIComponent requestPath with
  | none => none
  | some decoded =>
    resolveSafeChecks cwd base
      (posixJoin2 base (stripLeadingDotDot (posixNormalize decoded)))

/-! ## Host resolution (config.js and photon.js variants) -/

/-- One entry of `config.domains`. -/
structure DomainCfg where
  domain : Str
  home : Str
deriving DecidableEq

/-- config.js `getHomeForHost`: exact membership of the raw host in the
comma-separated, trimmed name list of each entry, in configured order. -/
def configGetHomeForHost (domains : List DomainCfg) (host : Str) : Option Str :=
  match domains with
  | [] => none
  | dc :: rest =>
    if ((splitChar ',' dc.domain).map jsTrim).contains host then some dc.home
    else configGetHomeForHost rest host

/-- Loop body of photon.js `getHomeForHost` over the entries. -/
def photonGetHomeGo (h : Str) : List DomainCfg → Option Str
  | [] => none
  | dc :: rest =>
    let domain := toLowerStr dc.domain
    if List.isPrefixOf ['*', '.'] domain then
      if h = domain.drop 2 ∨ List.isSuffixOf ('.' :: domain.drop 2) h then some dc.home
      else photonGetHomeGo h rest
    else if h = domain then some dc.home
    else photonGetHomeGo h rest

/-- photon.js `getHomeForHost`: `if (!host) return null`, strip an
optional `:port` suffix, lowercase, then first match wins with exact or
wildcard-suffix (`*.`) patterns, one pattern per entry. -/
def photonGetHomeForHost (domains : List DomainCfg) (host : Option Str) : Option Str :=
  match host with
  | none => none
  | some h0 =>
    if h0 = [] then none
    else photonGetHomeGo (toLowerStr (h0.takeWhile (· != ':'))) domains

/-! ## Response model (Node `http.ServerResponse` as used by the server)

Header names are stored lowercased (Node's case-insensitive header
table); a header value is the list of values stored under the name.
`statusCode` starts at Node's default `200` and only changes by explicit
assignment. `accessLog` records the status values passed to the
access logger. -/

structure Resp where
  statusCode : Nat
  headers : List (Str × List Str)
  body : Str
  accessLog : List Nat
deriving DecidableEq

def respInit : Resp := { statusCode := 200, headers := [], body := [], accessLog := [] }

/-- Node `res.setHeader` (replaces any existing value). -/
def setHeader (res : Resp) (name value : Str) : Resp :=
  { res with headers := assocSet (toLowerStr name) [value] res.headers }

/-- Node `res.getHeader` (case-insensitive). -/
def getHeader (res : Resp) (name : Str) : Option (List Str) :=
  assocLookup res.headers (toLowerStr name)

/-- utils.js `sendError` (the JSON string escaping of `JSON.stringify`
is elided: messages used here contain no characters needing escapes). -/
def htmlErrorBody (statusCode : Nat) (msg : Str) : Str :=
  "<html><head><title>Error</title></head><body><h1>".data ++
    Nat.toDigits 10 statusCode ++ " Error</h1><p>".data ++ msg ++
    "</p></body></html>".data

def jsonErrorBody (msg : Str) : Str :=
  "\x7b\"error\":\"".data ++ msg ++ "\"\x7d".data

def sendError (wantsJson : Bool) (res : Resp) (statusCode : Nat) (msg : Str) : Resp :=
  if wantsJson then
    let res1 := setHeader { res with statusCode := statusCode }
      "Content-Type".data "application/json".data
    { res1 with body := res1.body ++ jsonErrorBody msg }
  else
    let res1 := setHeader { res with statusCode := statusCode }
      "Content-Type".data "text/html".data
    { res1 with body := res1.body ++ htmlErrorBody statusCode msg }

/-! ## htaccess.js -/

/-- A filesystem entity: a regular file with contents, or a directory. -/
inductive FsEntry
  | file (content : Str)
  | dir
deriving DecidableEq

/-- Abstract filesystem: path to entity. -/
abbrev FS := List (Str × FsEntry)

def fsLookup (fs : FS) (p : Str) : Option FsEntry := assocLookup fs p

def existsSync (fs : FS) (p : Str) : Bool := (fsLookup fs p).isSome

def isDirSync (fs : FS) (p : Str) : Bool := fsLookup fs p == some FsEntry.dir

/-- One line of the `.htaccess` parse loop in `searchHtaccess`:
`ErrorDocument <code> <path...>`, relative paths joined onto the
directory of the directive file, later directives overriding. -/
def parseHtaccessLine (curDir : Str) (errors : List (Str × Str)) (line0 : Str) :
    List (Str × Str) :=
  let line := jsTrim line0
  if List.isPrefixOf "ErrorDocument".data line then
    let parts := splitWs line
    if 3 ≤ parts.length then
      let doc0 := joinWith ' ' (parts.drop 2)
      let doc := if posixIsAbsolute doc0 then doc0 else posixJoin2 curDir doc0
      assocSet (parts.getD 1 []) doc errors
    else errors
  else errors

def parseHtaccess (curDir content : Str) : List (Str × Str) :=
  (splitChar '\n' content).foldl (parseHtaccessLine curDir) []

/-- Termination measure for the upward walk: `.` is the relative
fixpoint of `dirname`; every non-fixpoint step strictly decreases it. -/
def dirMeasure (p : Str) : Nat := if p = ['.'] then 0 else p.length + 2

/-- htaccess.js `searchHtaccess` with explicit fuel, one unit per loop
iteration; `none` means the fuel ran out. A directory entry at the
`.htaccess` path models the `readFileSync` throw, caught to `{}`. -/
def searchHtaccessFuel : Nat → FS → Str → Option (List (Str × Str))
  | 0, _, _ => none
  | n + 1, fs, curDir =>
    match fsLookup fs (posixJoin2 curDir ".htaccess".data) with
    | some (FsEntry.file content) => some (parseHtaccess curDir content)
    | some FsEntry.dir => some []
    | none =>
      if posixDirname curDir = curDir then some []
      else searchHtaccessFuel n fs (posixDirname curDir)

def searchHtaccess (fs : FS) (startDir : Str) : List (Str × Str) :=
  (searchHtaccessFuel (dirMeasure startDir + 1) fs startDir).getD []

/-! ## router.js `processErrorDocument` -/

/-- Outcome of `processErrorDocument`: either a finished response, or
delegation of an error document to `executePhp`. -/
inductive PedResult
  | response (r : Resp)
  | phpDelegated (doc : Str) (r : Resp)
deriving DecidableEq

/-- router.js `processErrorDocument`. Note that neither the static nor
the PHP branch ever assigns `res.statusCode`; only the fallback
`sendError` does. The access log is written with the `statusCode`
argument. A directory as error document models the
`createReadStream` error event (`sendError 500`). -/
def processErrorDocument (fs : FS) (wantsJson : Bool) (statusCode : Nat)
    (notFoundPath : Str) (res : Resp) : PedResult :=
  let statExists := existsSync fs notFoundPath && isDirSync fs notFoundPath
  let searchDir := if statExists then notFoundPath else posixDirname notFoundPath
  match assocLookup (searchHtaccess fs searchDir) (Nat.toDigits 10 statusCode) with
  | some doc =>
    if existsSync fs doc then
      let ext := toLowerStr (posixExtname doc)
      if ext = ".php".data then PedResult.phpDelegated doc res
      else
        match fsLookup fs doc with
        | some (FsEntry.file content) =>
          let res1 :=
            if ext = ".html".data ∨ ext = ".htm".data then
              setHeader res "Content-Type".data "text/html".data
            else res
          PedResult.response
            { res1 with body := res1.body ++ content,
                        accessLog := res1.accessLog ++ [statusCode] }
        | _ => PedResult.response (sendError wantsJson res 500 "Internal Server Error".data)
    else
      PedResult.response
        { sendError wantsJson res statusCode "Not Found".data with
            accessLog := res.accessLog ++ [statusCode] }
  | none =>
    PedResult.response
      { sendError wantsJson res statusCode "Not Found".data with
          accessLog := res.accessLog ++ [statusCode] }

/-! ## phpExecutor.js output framing -/

/-- Decoder state of one CGI invocation: the accumulated buffer, the
`headersSent` flag (`false` = ACCUMULATING_HEADERS, `true` =
STREAMING_BODY) and the response being built. -/
structure CgiState where
  headerBuffer : Str
  headersSent : Bool
  res : Resp
deriving DecidableEq

def cgiInit : CgiState := { headerBuffer := [], headersSent := false, res := respInit }

/-- The header/body separator search:
`indexOf("\r\n\r\n")`, falling back to `indexOf("\n\n")`. -/
def findSep (buf : Str) : Option Nat :=
  match jsIndexOf "\r\n\r\n".data buf with
  | some i => some i
  | none => jsIndexOf "\n\n".data buf

/-- The `replace(/^\r?\n/, "")` applied to the remainder. -/
def stripLeadCrLf : Str → Str
  | '\r' :: '\n' :: t => t
  | '\n' :: t => t
  | s => s

/-- Split on the regex `/\r?\n/`. -/
def dropTailCr (p : Str) : Str := if p.getLast? = some '\r' then p.dropLast else p

def splitLines (s : Str) : List Str := (splitChar '\n' s).map dropTailCr

/-- Header-line application of src/src/phpExecutor.js: split on `:`,
and when at least one colon is present set the trimmed name to the
trimmed rejoined value (`res.setHeader`, overwriting). -/
def applyLinePlain (res : Resp) (line : Str) : Resp :=
  if 2 ≤ (splitChar ':' line).length then
    setHeader res (jsTrim ((splitChar ':' line).headD []))
      (jsTrim (joinWith ':' (splitChar ':' line).tail))
  else res

/-- Header-name dispatch of the part_001 executor variant: multiple
`set-cookie` values are collected into a list, others set directly. -/
def applyMergeNamed (res : Resp) (hName hValue : Str) : Resp :=
  if toLowerStr hName = "set-cookie".data then
    match getHeader res "Set-Cookie".data with
    | some current =>
      { res with headers :=
          assocSet (toLowerStr "Set-Cookie".data) (current ++ [hValue]) res.headers }
    | none => setHeader res "Set-Cookie".data hValue
  else setHeader res hName hValue

/-- Header-line application of the part_001 executor variant. -/
def applyLineMerge (res : Resp) (line : Str) : Resp :=
  if 2 ≤ (splitChar ':' line).length then
    applyMergeNamed res (jsTrim ((splitChar ':' line).headD []))
      (jsTrim (joinWith ':' (splitChar ':' line).tail))
  else res

/-- On finding the separator at `headerEnd`: apply each header line of
the header block, then write the remainder as the first body chunk. -/
def cgiApplyHeadersAndBody (applyLine : Resp → Str → Resp) (buf : Str)
    (headerEnd : Nat) (res : Resp) : Resp :=
  let res1 := (splitLines (buf.take headerEnd)).foldl applyLine res
  { res1 with body := res1.body ++ stripLeadCrLf (buf.drop (headerEnd + 2)) }

/-- The `php.stdout.on("data", ...)` handler: accumulate while headers
are unsent and look for the separator; once sent, forward verbatim. -/
def cgiStep (applyLine : Resp → Str → Resp) (s : CgiState) (data : Str) : CgiState :=
  if s.headersSent = true then
    { s with res := { s.res with body := s.res.body ++ data } }
  else
    match findSep (s.headerBuffer ++ data) with
    | none => { s with headerBuffer := s.headerBuffer ++ data }
    | some headerEnd =>
      { headerBuffer := s.headerBuffer ++ data,
        headersSent := true,
        res := cgiApplyHeadersAndBody applyLine (s.headerBuffer ++ data) headerEnd s.res }

/-- src/src/phpExecutor.js data handler. -/
def cgiStepSrc : CgiState → Str → CgiState := cgiStep applyLinePlain

/-- part_001 executor variant data handler. -/
def cgiStepMerge : CgiState → Str → CgiState := cgiStep applyLineMerge

/-- Run the src executor's decoder over a whole stdout chunk sequence. -/
def runCgiSrc (chunks : List Str) : CgiState := chunks.foldl cgiStepSrc cgiInit

/-- The `php.stdout.on("end", ...)` handler of src/src/phpExecutor.js:
if no separator was ever found and bytes were buffered, write the whole
buffer as body; then end and log the current status. -/
def cgiEnd (s : CgiState) : Resp :=
  if s.headersSent = false ∧ s.headerBuffer ≠ [] then
    { s.res with body := s.res.body ++ s.headerBuffer,
                 accessLog := s.res.accessLog ++ [s.res.statusCode] }
  else { s.res with accessLog := s.res.accessLog ++ [s.res.statusCode] }

/-! ## Helper lemmas -/

lemma isPrefixOf_true_iff : ∀ (a b : Str), List.isPrefixOf a b = true ↔ a <+: b
  | [], b => by
    constructor
    · intro _; exact ⟨b, rfl⟩
    · intro _
      cases b with
      | nil => rfl
      | cons x xs => rfl
  | _ :: _, [] => by
    constructor
    · intro h; cases h
    · rintro ⟨t, ht⟩; cases ht
  | a :: as, b :: bs => by
    simp only [List.isPrefixOf, Bool.and_eq_true, beq_iff_eq, List.cons_prefix_cons]
    exact and_congr Iff.rfl (isPrefixOf_true_iff as bs)

lemma jsIndexOf_isSome_iff (pat : Str) : ∀ (s : Str), (jsIndexOf pat s).isSome = true ↔ pat <:+: s := by
  intro s
  induction s with
  | nil =>
    simp only [jsIndexOf]
    by_cases h : List.isPrefixOf pat ([] : Str) = true
    · rw [if_pos h]
      exact iff_of_true rfl (((isPrefixOf_true_iff _ _).mp h).isInfix)
    · rw [if_neg h]
      simp only [Option.isSome_none, Bool.false_eq_true, false_iff]
      rintro ⟨u, v, huv⟩
      obtain ⟨hu, hv⟩ := List.append_eq_nil.mp huv
      obtain ⟨hu0, hp⟩ := List.append_eq_nil.mp hu
      exact h (by rw [hp]; rfl)
  | cons c t ih =>
    simp only [jsIndexOf]
    by_cases h : List.isPrefixOf pat (c :: t) = true
    · rw [if_pos h]
      exact iff_of_true rfl (((isPrefixOf_true_iff _ _).mp h).isInfix)
    · rw [if_neg h]
      cases hj : jsIndexOf pat t with
      | some i =>
        simp only [Option.isSome_some, true_iff]
        have : pat <:+: t := (ih).mp (by rw [hj]; rfl)
        obtain ⟨u, v, huv⟩ := this
        exact ⟨c :: u, v, by simp [huv]⟩
      | none =>
        simp only [Option.isSome_none, Bool.false_eq_true, false_iff]
        intro hinf
        rcases (List.infix_cons_iff).mp hinf with hp | hi
        · exact h ((isPrefixOf_true_iff _ _).mpr hp)
        · have : (jsIndexOf pat t).isSome = true := (ih).mpr hi
          rw [hj] at this; cases this

lemma jsIndexOf_eq_none_iff (pat s : Str) : jsIndexOf pat s = none ↔ ¬ pat <:+: s := by
  rw [← jsIndexOf_isSome_iff]
  cases jsIndexOf pat s <;> simp

lemma findSep_eq_none_iff (s : Str) :
    findSep s = none ↔ ¬ "\r\n\r\n".data <:+: s ∧ ¬ "\n\n".data <:+: s := by
  unfold findSep
  cases h1 : jsIndexOf "\r\n\r\n".data s with
  | some i =>
    simp only
    constructor
    · intro h; cases h
    · intro ⟨ha, _⟩
      exact absurd ((jsIndexOf_eq_none_iff _ _).mpr ha) (by rw [h1]; intro h; cases h)
  | none =>
    simp only
    rw [jsIndexOf_eq_none_iff]
    exact ⟨fun h => ⟨(jsIndexOf_eq_none_iff _ _).mp h1, h⟩, fun ⟨_, hb⟩ => hb⟩

lemma findSep_append_none {a b : Str} (h : findSep (a ++ b) = none) : findSep a = none := by
  rw [findSep_eq_none_iff] at h ⊢
  have hmono : ∀ pat : Str, pat <:+: a → pat <:+: a ++ b := by
    intro pat hp
    exact hp.trans ((List.prefix_append a b).isInfix)
  exact ⟨fun hp => h.1 (hmono _ hp), fun hp => h.2 (hmono _ hp)⟩

lemma splitChar_ne_nil (c : Char) : ∀ (s : Str), splitChar c s ≠ []
  | [] => by simp [splitChar]
  | h :: t => by
    simp only [splitChar]
    split <;> simp

lemma splitChar_sep_split (c : Char) :
    ∀ (n v : Str), ¬ c ∈ n → splitChar c (n ++ c :: v) = n :: splitChar c v
  | [], v, _ => by
    show splitChar c (c :: v) = [] :: splitChar c v
    simp [splitChar]
  | a :: as, v, hn => by
    have hac : ¬ a = c := fun h => hn (h ▸ List.mem_cons_self a as)
    have ih := splitChar_sep_split c as v (fun h => hn (List.mem_cons_of_mem a h))
    show splitChar c (a :: (as ++ c :: v)) = (a :: as) :: splitChar c v
    simp only [splitChar, if_neg hac, ih]
    rfl

lemma joinWith_splitChar (c : Char) : ∀ (v : Str), joinWith c (splitChar c v) = v
  | [] => rfl
  | h :: t => by
    have ih := joinWith_splitChar c t
    simp only [splitChar]
    by_cases hc : h = c
    · rw [if_pos hc]
      cases hsp : splitChar c t with
      | nil => exact absurd hsp (splitChar_ne_nil c t)
      | cons p ps =>
        rw [hsp] at ih
        show ([] : Str) ++ c :: joinWith c (p :: ps) = h :: t
        rw [List.nil_append, ih, hc]
    · rw [if_neg hc]
      cases hsp : splitChar c t with
      | nil => exact absurd hsp (splitChar_ne_nil c t)
      | cons p ps =>
        rw [hsp] at ih
        cases ps with
        | nil =>
          show h :: p = h :: t
          rw [show p = t from ih]
        | cons q qs =>
          show (h :: p) ++ c :: joinWith c (q :: qs) = h :: t
          have hjoin : p ++ c :: joinWith c (q :: qs) = t := ih
          rw [List.cons_append, hjoin]

lemma length_dropWhileStr_le (p : Char → Bool) : ∀ (l : Str), (l.dropWhile p).length ≤ l.length
  | [] => Nat.le_refl _
  | a :: l => by
    rw [List.dropWhile_cons]
    split
    · exact Nat.le_trans (length_dropWhileStr_le p l) (Nat.le_succ _)
    · exact Nat.le_refl _

lemma dropWhileStr_cons_false (p : Char → Bool) : ∀ {l : Str} {a : Char} {t : Str},
    l.dropWhile p = a :: t → p a = false
  | [], a, t => by intro h; cases h
  | b :: l, a, t => by
    rw [List.dropWhile_cons]
    split
    · exact fun h => dropWhileStr_cons_false p h
    · rename_i hb
      intro h
      cases h
      exact Bool.not_eq_true _ ▸ (by simpa using hb)

/-! ## C10 termination lemmas -/

/-- The root/dot fallback branch of `dirnameCore` either returns `d`
itself or strictly decreases the measure. -/
lemma dirnameRoot_measure (d : Str) (h0 : d ≠ []) :
    (if posixIsAbsolute d then (['/'] : Str) else ['.']) = d ∨
    dirMeasure (if posixIsAbsolute d then (['/'] : Str) else ['.']) < dirMeasure d := by
  by_cases hroot : posixIsAbsolute d = true
  · rw [if_pos hroot]
    by_cases hd : d = ['/']
    · left; rw [hd]
    · right
      have hne : d ≠ ['.'] := by
        intro h
        rw [h] at hroot
        simp [posixIsAbsolute] at hroot
      have hlen2 : 2 ≤ d.length := by
        rcases d with _ | ⟨a, t⟩
        · exact absurd rfl h0
        · have ha : a = '/' := by
            have h1 := hroot
            simp only [posixIsAbsolute, List.head?, Option.some.injEq, beq_iff_eq] at h1
            exact h1
          cases t with
          | nil => exact absurd (by rw [ha]) hd
          | cons b u => exact Nat.succ_le_succ (Nat.succ_le_succ (Nat.zero_le _))
      have h1 : dirMeasure (['/'] : Str) = 3 := by decide
      have h2 : dirMeasure d = d.length + 2 := by simp [dirMeasure, hne]
      omega
  · rw [if_neg hroot]
    by_cases hd : d = ['.']
    · left; rw [hd]
    · right
      have h1 : dirMeasure (['.'] : Str) = 0 := by decide
      have h2 : dirMeasure d = d.length + 2 := by simp [dirMeasure, hd]
      have h3 : 1 ≤ d.length := by
        cases d with
        | nil => exact absurd rfl h0
        | cons a t => exact Nat.succ_le_succ (Nat.zero_le _)
      omega

lemma posixDirname_measure (d : Str) :
    posixDirname d = d ∨ dirMeasure (posixDirname d) < dirMeasure d := by
  by_cases h0 : d = []
  · right
    subst h0
    simp [posixDirname, dirMeasure]
  · unfold posixDirname
    rw [if_neg h0]
    cases hr1 : d.reverse.dropWhile (· == '/') with
    | nil =>
      rw [List.dropWhile_nil]
      exact dirnameRoot_measure d h0
    | cons a l =>
      have ha : (a == '/') = false := dropWhileStr_cons_false (fun x => x == '/') hr1
      have ha' : (a != '/') = true := by simp [bne, ha]
      rw [List.dropWhile_cons, if_pos ha']
      have hllen : l.length + 1 ≤ d.length := by
        have h1 := length_dropWhileStr_le (· == '/') d.reverse
        rw [hr1, List.length_reverse] at h1
        simpa using h1
      cases hr2 : l.dropWhile (· != '/') with
      | nil =>
        exact dirnameRoot_measure d h0
      | cons x t =>
        have hr2len := length_dropWhileStr_le (· != '/') l
        rw [hr2] at hr2len
        have htlen : t.length + 1 ≤ l.length := by simpa using hr2len
        simp only [dirnameCore]
        have hdne : d ≠ ['.'] := by
          intro h
          rw [h] at hllen
          simp only [List.length_cons, List.length_nil] at hllen
          omega
        have hdm : dirMeasure d = d.length + 2 := by simp [dirMeasure, hdne]
        by_cases ht0 : t.reverse = ([] : Str)
        · rw [if_pos ht0]
          exact dirnameRoot_measure d h0
        · rw [if_neg ht0]
          right
          have htrevlen : t.reverse.length = t.length := List.length_reverse t
          by_cases hsl : posixIsAbsolute d = true ∧ t.reverse = ['/']
          · rw [if_pos hsl]
            have h1 : dirMeasure (['/', '/'] : Str) = 4 := by decide
            have ht1 : t.length = 1 := by rw [← htrevlen, hsl.2]; rfl
            rw [hdm, h1]
            omega
          · rw [if_neg hsl]
            have hbound : dirMeasure t.reverse ≤ t.length + 2 := by
              by_cases hdot : t.reverse = ['.']
              · simp [dirMeasure, hdot]
              · simp [dirMeasure, hdot, htrevlen]
            rw [hdm]
            omega

lemma searchHtaccessFuel_total :
    ∀ (n : Nat) (fs : FS) (d : Str), dirMeasure d < n →
      ∃ m, searchHtaccessFuel n fs d = some m := by
  intro n
  induction n with
  | zero => intro fs d h; exact absurd h (Nat.not_lt_zero _)
  | succ n ih =>
    intro fs d h
    simp only [searchHtaccessFuel]
    cases hfs : fsLookup fs (posixJoin2 d ".htaccess".data) with
    | some e =>
      cases e with
      | file content => exact ⟨_, rfl⟩
      | dir => exact ⟨[], rfl⟩
    | none =>
      by_cases hp : posixDirname d = d
      · rw [if_pos hp]; exact ⟨[], rfl⟩
      · rw [if_neg hp]
        apply ih
        rcases posixDirname_measure d with h1 | h1
        · exact absurd h1 hp
        · omega

/-! ## CGI decoder lemmas -/

lemma cgiStep_sent (f : Resp → Str → Resp) (s : CgiState) (d : Str)
    (h : s.headersSent = true) :
    cgiStep f s d = { s with res := { s.res with body := s.res.body ++ d } } := by
  unfold cgiStep
  rw [if_pos h]

lemma cgiStep_not_sent_none (f : Resp → Str → Resp) {s : CgiState} {d : Str}
    (h : s.headersSent = false) (hf : findSep (s.headerBuffer ++ d) = none) :
    cgiStep f s d = { s with headerBuffer := s.headerBuffer ++ d } := by
  unfold cgiStep
  rw [if_neg (by rw [h]; intro hc; cases hc), hf]

lemma cgiStep_not_sent_some (f : Resp → Str → Resp) {s : CgiState} {d : Str} {e : Nat}
    (h : s.headersSent = false) (hf : findSep (s.headerBuffer ++ d) = some e) :
    (cgiStep f s d).headersSent = true := by
  unfold cgiStep
  rw [if_neg (by rw [h]; intro hc; cases hc), hf]

lemma foldl_cgiStep_sent (f : Resp → Str → Resp) :
    ∀ (chunks : List Str) (s : CgiState), s.headersSent = true →
      (chunks.foldl (cgiStep f) s).headersSent = true
  | [], s, h => h
  | c :: cs, s, h => by
    rw [List.foldl_cons, cgiStep_sent f s c h]
    exact foldl_cgiStep_sent f cs _ h

lemma foldl_cgiStep_no_sep (f : Resp → Str → Resp) :
    ∀ (chunks : List Str) (s : CgiState), s.headersSent = false →
      findSep (s.headerBuffer ++ chunks.flatten) = none →
      chunks.foldl (cgiStep f) s = { s with headerBuffer := s.headerBuffer ++ chunks.flatten }
  | [], s, _, _ => by simp
  | c :: cs, s, hs, hf => by
    have hassoc : s.headerBuffer ++ (c :: cs).flatten = (s.headerBuffer ++ c) ++ cs.flatten := by
      rw [List.flatten_cons, List.append_assoc]
    have hf1 : findSep ((s.headerBuffer ++ c) ++ cs.flatten) = none := by
      rw [← hassoc]; exact hf
    have hfc : findSep (s.headerBuffer ++ c) = none := findSep_append_none hf1
    rw [List.foldl_cons, cgiStep_not_sent_none f hs hfc]
    rw [foldl_cgiStep_no_sep f cs { s with headerBuffer := s.headerBuffer ++ c } hs hf1]
    rw [hassoc]

lemma foldl_cgiStep_not_sent (f : Resp → Str → Resp) :
    ∀ (chunks : List Str) (s : CgiState), s.headersSent = false →
      findSep s.headerBuffer = none →
      (chunks.foldl (cgiStep f) s).headersSent = false →
      findSep (s.headerBuffer ++ chunks.flatten) = none
  | [], s, _, hb, _ => by simpa using hb
  | c :: cs, s, hs, _, hfinal => by
    cases hfc : findSep (s.headerBuffer ++ c) with
    | some e =>
      exfalso
      have h1 : (cgiStep f s c).headersSent = true := cgiStep_not_sent_some f hs hfc
      have h2 := foldl_cgiStep_sent f cs (cgiStep f s c) h1
      rw [List.foldl_cons] at hfinal
      rw [hfinal] at h2
      cases h2
    | none =>
      rw [List.foldl_cons, cgiStep_not_sent_none f hs hfc] at hfinal
      have hrec := foldl_cgiStep_not_sent f cs
        { s with headerBuffer := s.headerBuffer ++ c } hs hfc hfinal
      simpa [List.flatten_cons, List.append_assoc] using hrec

/-! ## Claim theorems -/

/-- Dispatch lemma: a successful `resolveSafe` means the decode
succeeded and the two guards passed on the joined path. -/
lemma resolveSafe_eq_some {cwd base p fp : Str} (h : resolveSafe cwd base p = some fp) :
    ∃ d, decodeURIComponent p = some d ∧
      resolveSafeChecks cwd base
        (posixJoin2 base (stripLeadingDotDot (posixNormalize d))) = some fp := by
  unfold resolveSafe at h
  cases hdec : decodeURIComponent p with
  | none => rw [hdec] at h; exact Option.noConfusion h
  | some d => rw [hdec] at h; exact ⟨d, rfl, h⟩

/-- C1 (amended): every path returned by `resolveSafe` has the
canonicalized base as a string prefix — the base itself or a
descendant — so it is never outside the base, but it is not always a
strict descendant. -/
theorem photon_c1_resolveSafe_contained :
    ∀ (cwd base p fp : Str), resolveSafe cwd base p = some fp →
      List.isPrefixOf (posixResolve1 cwd base) fp = true := by
  intro cwd base p fp h
  obtain ⟨d, _, hch⟩ := resolveSafe_eq_some h
  unfold resolveSafeChecks at hch
  split at hch
  · exact Option.noConfusion hch
  · split at hch
    · exact Option.noConfusion hch
    · rename_i h1 h2
      injection hch with hfp
      subst hfp
      simp only [Bool.not_eq_false] at h1
      exact h1

/-- C1 witness: a concrete contained resolution. -/
theorem photon_c1_resolveSafe_contained_witness :
    List.isPrefixOf (posixResolve1 "/".data "/home".data) "/home/index.html".data = true :=
  photon_c1_resolveSafe_contained "/".data "/home".data "/index.html".data
    "/home/index.html".data (by decide)

/-- C1 counterexample: for request path `.` the function returns the
canonicalized home root itself, which is not a strict descendant. -/
theorem photon_c1_returns_base_itself :
    resolveSafe "/".data "/home".data ".".data = some "/home".data ∧
    posixResolve1 "/".data "/home".data = "/home".data := by decide

/-- C2: a returned target has, relative to the base, no segment equal
to `.` and no segment beginning with a dot; and whenever the joined
path would have such a segment relative to the base, `resolveSafe`
returns none. -/
theorem photon_c2_no_hidden_segments :
    (∀ (cwd base p fp : Str), resolveSafe cwd base p = some fp →
        ∀ seg ∈ splitChar '/' (posixRelative cwd base fp),
          ¬ List.isPrefixOf ['.'] seg = true ∧ seg ≠ ['.']) ∧
    (∀ (cwd base p d : Str), decodeURIComponent p = some d →
        hasDotfile (posixRelative cwd base
          (posixJoin2 base (stripLeadingDotDot (posixNormalize d)))) = true →
        resolveSafe cwd base p = none) := by
  constructor
  · intro cwd base p fp h
    obtain ⟨d, _, hch⟩ := resolveSafe_eq_some h
    unfold resolveSafeChecks at hch
    split at hch
    · exact Option.noConfusion hch
    · split at hch
      · exact Option.noConfusion hch
      · rename_i h1 h2
        injection hch with hfp
        subst hfp
        simp only [Bool.not_eq_true] at h2
        unfold hasDotfile at h2
        intro seg hseg
        have hfalse := (List.any_eq_false.mp h2) seg hseg
        simp only [Bool.not_eq_true] at hfalse
        constructor
        · simp only [Bool.not_eq_true]
          exact hfalse
        · intro hdot
          rw [hdot] at hfalse
          exact absurd hfalse (by decide)
  · intro cwd base p d hdec hdot
    unfold resolveSafe
    rw [hdec]
    show resolveSafeChecks cwd base
      (posixJoin2 base (stripLeadingDotDot (posixNormalize d))) = none
    unfold resolveSafeChecks
    by_cases h1 : List.isPrefixOf (posixResolve1 cwd base)
        (posixJoin2 base (stripLeadingDotDot (posixNormalize d))) = false
    · rw [if_pos h1]
    · rw [if_neg h1, if_pos hdot]

/-- C2 witness: concrete instances of both directions. -/
theorem photon_c2_no_hidden_segments_witness :
    (¬ List.isPrefixOf ['.'] "a".data = true ∧ "a".data ≠ ['.']) ∧
    resolveSafe "/".data "/home".data "/.git".data = none :=
  ⟨photon_c2_no_hidden_segments.1 "/".data "/home".data "/a/b.txt".data
      "/home/a/b.txt".data (by decide) "a".data (by decide),
   photon_c2_no_hidden_segments.2 "/".data "/home".data "/.git".data "/.git".data
      (by decide) (by decide)⟩

/-- C3: evaluation at the failing input. Resolution does not reject a
request for the protected interpreter config file: `resolveSafe`
returns the full path (its final segment being exactly `user.ini`),
contradicting the claim that resolution returns none; the rejection
attempted later in `serveFile` responds 403 (not a not-found) and
calls the nonexistent method `String.prototype.contains`. -/
theorem photon_c3_user_ini_not_rejected :
    resolveSafe "/".data "/home".data "/user.ini".data = some "/home/user.ini".data ∧
    posixBasename "/home/user.ini".data = "user.ini".data := by decide

/-- Concrete filesystem for the C4 evaluation: a 404 inside `/h/sub`
whose directive file maps 404 to an existing static error document. -/
def fsC4 : FS :=
  [("/h".data, FsEntry.dir), ("/h/sub".data, FsEntry.dir),
   ("/h/sub/.htaccess".data, FsEntry.file "ErrorDocument 404 /h/err.html".data),
   ("/h/err.html".data, FsEntry.file "oops".data)]

/-- C4: evaluation at the failing input. Serving the 404 error document
leaves the client-visible status at Node's default 200 — no branch of
`processErrorDocument` assigns `statusCode` — while the access log
records 404, contradicting the claim that the client sees the original
failing code. -/
theorem photon_c4_error_document_status :
    processErrorDocument fsC4 false 404 "/h/sub/missing.txt".data respInit =
      PedResult.response
        { statusCode := 200,
          headers := [("content-type".data, ["text/html".data])],
          body := "oops".data, accessLog := [404] } ∧
    (200 : Nat) ≠ 404 := by decide

/-- The host entries of the claimed example. -/
def exDomains : List DomainCfg :=
  [⟨"example.com".data, "/a".data⟩, ⟨"*.example.com".data, "/b".data⟩]

/-- C5 counterexample: no single resolver has all the claimed features.
The config.js resolver (used by the router) does not match the
wildcard entry, and the photon.js resolver (which strips ports,
lowercases and supports wildcards) does not split comma lists. -/
theorem photon_c5_claim_false :
    configGetHomeForHost exDomains "foo.example.com".data = none ∧
    photonGetHomeForHost [⟨"a.com,b.com".data, "/x".data⟩] (some "a.com".data) = none := by
  decide

/-- C5 (amended): the two host-resolver variants behave as follows on
the example entries: config.js matches only exact comma-separated
names (no port stripping, lowercasing or wildcards); photon.js strips
a port, lowercases, iterates in order and supports exact or
wildcard-suffix patterns, one pattern per entry. -/
theorem photon_c5_host_resolution_variants :
    (configGetHomeForHost exDomains "example.com".data = some "/a".data ∧
     configGetHomeForHost exDomains "foo.example.com".data = none ∧
     configGetHomeForHost exDomains "other.com".data = none ∧
     configGetHomeForHost exDomains "example.com:8443".data = none ∧
     configGetHomeForHost [⟨"a.com, b.com".data, "/x".data⟩] "b.com".data = some "/x".data) ∧
    (photonGetHomeForHost exDomains (some "example.com".data) = some "/a".data ∧
     photonGetHomeForHost exDomains (some "foo.example.com".data) = some "/b".data ∧
     photonGetHomeForHost exDomains (some "other.com".data) = none ∧
     photonGetHomeForHost exDomains (some "EXAMPLE.COM:8443".data) = some "/a".data ∧
     photonGetHomeForHost [⟨"a.com,b.com".data, "/x".data⟩] (some "a.com".data) = none) := by
  decide

/-- C6: each header line with a colon is split at the first colon into
a trimmed name and trimmed value (the value may itself contain
colons); and on both separator variants the example outputs produce
the expected header and exact body. -/
theorem photon_c6_header_framing :
    (∀ (res : Resp) (n v : Str), ¬ ':' ∈ n →
        applyLinePlain res (n ++ ':' :: v) = setHeader res (jsTrim n) (jsTrim v)) ∧
    ((cgiStepSrc cgiInit "Content-Type: text/plain\r\n\r\nHELLO".data).headersSent = true ∧
     (cgiStepSrc cgiInit "Content-Type: text/plain\r\n\r\nHELLO".data).res.body = "HELLO".data ∧
     getHeader (cgiStepSrc cgiInit "Content-Type: text/plain\r\n\r\nHELLO".data).res
       "Content-Type".data = some ["text/plain".data]) ∧
    ((cgiStepSrc cgiInit "X-A: b\n\nBODY".data).res.body = "BODY".data ∧
     getHeader (cgiStepSrc cgiInit "X-A: b\n\nBODY".data).res "X-A".data =
       some ["b".data]) := by
  refine ⟨?_, by decide, by decide⟩
  intro res n v hn
  unfold applyLinePlain
  rw [splitChar_sep_split ':' n v hn]
  have hlen : 2 ≤ (n :: splitChar ':' v).length := by
    cases hsp : splitChar ':' v with
    | nil => exact absurd hsp (splitChar_ne_nil ':' v)
    | cons a l =>
      simp only [List.length_cons]
      omega
  rw [if_pos hlen]
  show setHeader res (jsTrim n) (jsTrim (joinWith ':' (splitChar ':' v))) =
    setHeader res (jsTrim n) (jsTrim v)
  rw [joinWith_splitChar]

/-- C6 witness: the general line-splitting part at a concrete line with
a colon inside the value. -/
theorem photon_c6_header_framing_witness :
    applyLinePlain respInit ("X".data ++ ':' :: " a:b".data) =
      setHeader respInit (jsTrim "X".data) (jsTrim " a:b".data) :=
  photon_c6_header_framing.1 respInit "X".data " a:b".data (by decide)

/-- C7: when no separator ever occurs in the whole stdout stream and at
least one byte was buffered, the end handler emits the entire buffered
content as the body under the default success status. -/
theorem photon_c7_no_separator_fallback (chunks : List Str)
    (hsep : findSep chunks.flatten = none) (hne : chunks.flatten ≠ []) :
    (cgiEnd (runCgiSrc chunks)).body = chunks.flatten ∧
    (cgiEnd (runCgiSrc chunks)).statusCode = 200 := by
  have hrun : runCgiSrc chunks =
      { cgiInit with headerBuffer := cgiInit.headerBuffer ++ chunks.flatten } := by
    unfold runCgiSrc cgiStepSrc
    exact foldl_cgiStep_no_sep applyLinePlain chunks cgiInit rfl hsep
  have hcond :
      ({ cgiInit with headerBuffer := cgiInit.headerBuffer ++ chunks.flatten } :
        CgiState).headersSent = false ∧
      ({ cgiInit with headerBuffer := cgiInit.headerBuffer ++ chunks.flatten } :
        CgiState).headerBuffer ≠ [] := ⟨rfl, hne⟩
  rw [hrun]
  unfold cgiEnd
  rw [if_pos hcond]
  exact ⟨rfl, rfl⟩

/-- C7 witness: the claimed `PLAINOUTPUT` example. -/
theorem photon_c7_no_separator_fallback_witness :
    (cgiEnd (runCgiSrc ["PLAINOUTPUT".data])).body = ["PLAINOUTPUT".data].flatten ∧
    (cgiEnd (runCgiSrc ["PLAINOUTPUT".data])).statusCode = 200 :=
  photon_c7_no_separator_fallback ["PLAINOUTPUT".data] (by decide) (by decide)

/-- Header block with two set-cookie lines, then the separator. -/
def cookieChunk : Str := "Set-Cookie: a=1\nSet-Cookie: b=2\n\nX".data

/-- C8 counterexample: the src/src/phpExecutor.js executor sets every
header with `res.setHeader`, so the second set-cookie value overwrites
the first instead of both being preserved as a list. -/
theorem photon_c8_set_cookie_overwritten :
    getHeader (cgiStepSrc cgiInit cookieChunk).res "Set-Cookie".data =
      some ["b=2".data] := by decide

/-- C8 (amended): the part_001 executor variant merges multiple
set-cookie lines into a list and sets other headers directly; the
src/src/phpExecutor.js variant used by the router overwrites, keeping
only the last value. -/
theorem photon_c8_set_cookie_variants :
    getHeader (cgiStepMerge cgiInit cookieChunk).res "Set-Cookie".data =
      some ["a=1".data, "b=2".data] ∧
    getHeader (cgiStepSrc cgiInit cookieChunk).res "Set-Cookie".data =
      some ["b=2".data] ∧
    getHeader (cgiStepMerge cgiInit "X-A: b\n\nQ".data).res "X-A".data =
      some ["b".data] := by decide

/-- C9 (amended): the decoder never transitions backward — once
`headersSent` is true it stays true and every subsequent chunk is
appended verbatim to the body — and over a whole invocation it
transitions at most once, exactly when the accumulated output contains
a separator. -/
theorem photon_c9_decoder_monotone :
    (∀ (s : CgiState) (d : Str), s.headersSent = true →
        (cgiStepSrc s d).headersSent = true ∧
        (cgiStepSrc s d).res.body = s.res.body ++ d) ∧
    (∀ chunks : List Str,
        (runCgiSrc chunks).headersSent = true ↔ findSep chunks.flatten ≠ none) := by
  constructor
  · intro s d h
    unfold cgiStepSrc
    rw [cgiStep_sent applyLinePlain s d h]
    exact ⟨h, rfl⟩
  · intro chunks
    constructor
    · intro hsent hnone
      have hrun := foldl_cgiStep_no_sep applyLinePlain chunks cgiInit rfl hnone
      have hfalse : (runCgiSrc chunks).headersSent = false := by
        show (chunks.foldl (cgiStep applyLinePlain) cgiInit).headersSent = false
        rw [hrun]
        rfl
      rw [hfalse] at hsent
      exact Bool.noConfusion hsent
    · intro hne
      by_cases hsent : (runCgiSrc chunks).headersSent = true
      · exact hsent
      · exfalso
        have hfalse : (runCgiSrc chunks).headersSent = false := by
          cases hb : (runCgiSrc chunks).headersSent
          · rfl
          · exact absurd hb hsent
        exact hne (foldl_cgiStep_not_sent applyLinePlain chunks cgiInit rfl (by decide) hfalse)

/-- C9 witness: monotonicity applied at a concrete sent state, and the
characterization at a concrete invocation with a separator. -/
theorem photon_c9_decoder_monotone_witness :
    ((cgiStepSrc ⟨"B".data, true, respInit⟩ "Y".data).headersSent = true ∧
     (cgiStepSrc ⟨"B".data, true, respInit⟩ "Y".data).res.body = respInit.body ++ "Y".data) ∧
    ((runCgiSrc ["H: v\n\n".data]).headersSent = true ↔
      findSep (["H: v\n\n".data] : List Str).flatten ≠ none) :=
  ⟨photon_c9_decoder_monotone.1 ⟨"B".data, true, respInit⟩ "Y".data rfl,
   photon_c9_decoder_monotone.2 ["H: v\n\n".data]⟩

/-- C9 counterexample: an invocation whose stream never contains the
separator performs zero transitions, not exactly one. -/
theorem photon_c9_no_transition :
    cgiInit.headersSent = false ∧
    (runCgiSrc ["PLAINOUTPUT".data]).headersSent = false := by decide

/-- C10: the upward `.htaccess` walk terminates: `dirMeasure d + 1`
iterations always suffice, because every loop step either returns, or
stops when a directory equals its own parent, or moves to a parent of
strictly smaller measure. -/
theorem photon_c10_searchHtaccess_terminates :
    (∀ (fs : FS) (startDir : Str),
        ∃ m, searchHtaccessFuel (dirMeasure startDir + 1) fs startDir = some m) ∧
    (∀ d : Str, posixDirname d = d ∨ dirMeasure (posixDirname d) < dirMeasure d) :=
  ⟨fun fs startDir =>
    searchHtaccessFuel_total (dirMeasure startDir + 1) fs startDir (Nat.lt_succ_self _),
   posixDirname_measure⟩
